import Mathlib

/-!
Verification of the tree-manipulation core of the ts-simple-ast repository.

The definitions below are shallow embeddings of the TypeScript sources:
* KeyValueCache        from src/src/utils/KeyValueCache.ts
* Node (the wrapper)   from src/src/DefaultFileSystemHost.ts (the Node class part)
* UnwrapParentHandler  from src/unnamed/part_000
JavaScript machine details are modelled explicitly: a JsVal type with JS
truthiness, Option for undefined, Except for thrown errors, and an
association list for the JS Map backing the cache.
-/

namespace TsAst

/-- A JavaScript value, as far as the cache code observes it: numbers,
strings, booleans, null, undefined, and opaque object references
(identified by a numeric id standing for the JS reference). -/
inductive JsVal where
  | num (n : Int)
  | str (s : String)
  | bool (b : Bool)
  | null
  | undef
  | obj (oid : Nat)
deriving DecidableEq

/-- JS truthiness of a value: 0, the empty string, false, null and
undefined are falsy; object references are always truthy. -/
def truthy : JsVal → Bool
  | .num n => n != 0
  | .str s => s != ""
  | .bool b => b
  | .null => false
  | .undef => false
  | .obj _ => true

/-- Model of the JS Map backing the cache (the Dictionary in
src/src/utils/Es5Map.ts is not under src; a JS Map is observably an
association list with unique keys): Map.get. -/
def mapGet (items : List (Nat × JsVal)) (k : Nat) : Option JsVal :=
  (items.find? (fun p => p.1 == k)).map (fun p => p.2)

/-- Model of JS Map.has. -/
def mapHas (items : List (Nat × JsVal)) (k : Nat) : Bool :=
  items.any (fun p => p.1 == k)

/-- Model of JS Map.set: updates the entry in place if the key is
present (keys are unique, so replacing the first occurrence suffices),
otherwise appends a new entry. -/
def mapSet : List (Nat × JsVal) → Nat → JsVal → List (Nat × JsVal)
  | [], k, v => [(k, v)]
  | a :: rest, k, v => if a.1 = k then (k, v) :: rest else a :: mapSet rest k v

/-- Model of JS Map.delete. -/
def mapDelete (items : List (Nat × JsVal)) (k : Nat) : List (Nat × JsVal) :=
  items.filter (fun p => p.1 != k)

/-- Thrown JS errors, by the error classes the sources construct:
errors.InvalidOperationError, errors.NotImplementedError, and the plain
built-in Error. -/
inductive Err where
  | invalidOperation (msg : String)
  | notImplemented (msg : String)
  | generic (msg : String)
deriving DecidableEq

/-- KeyValueCache from src/src/utils/KeyValueCache.ts.  The constructor
always picks the JS Map branch (typeof Map !== undefined is always
true), so cacheItems is modelled as the Map association list. -/
structure KeyValueCache where
  cacheItems : List (Nat × JsVal)
deriving DecidableEq

namespace KeyValueCache

/-- KeyValueCache.get: returns cacheItems.get(key) coerced with
the JS expression (value or undefined), so a falsy stored value
comes back as undefined (none). -/
def get (c : KeyValueCache) (key : Nat) : Option JsVal :=
  match mapGet c.cacheItems key with
  | some v => if truthy v then some v else none
  | none => none

/-- KeyValueCache.set. -/
def set (c : KeyValueCache) (key : Nat) (value : JsVal) : KeyValueCache :=
  ⟨mapSet c.cacheItems key value⟩

/-- KeyValueCache.getOrCreate: looks the key up through get; when the
result is null or undefined it invokes createFunc and stores the result.
Returns the item, the resulting cache, and whether createFunc ran. -/
def getOrCreate (c : KeyValueCache) (key : Nat) (createFunc : Unit → JsVal) :
    JsVal × KeyValueCache × Bool :=
  match get c key with
  | some item => (item, c, false)
  | none =>
    let item := createFunc ()
    (item, set c key item, true)

/-- KeyValueCache.replaceKey: throws a plain Error when the key is
absent; otherwise reads the raw stored value, deletes the old key and
sets it under the new key. -/
def replaceKey (c : KeyValueCache) (key newKey : Nat) : Except Err KeyValueCache :=
  if ¬ mapHas c.cacheItems key then
    .error (.generic "Key not found.")
  else
    let value := (mapGet c.cacheItems key).getD .undef
    .ok ⟨mapSet (mapDelete c.cacheItems key) newKey value⟩

/-- KeyValueCache.removeByKey. -/
def removeByKey (c : KeyValueCache) (key : Nat) : KeyValueCache :=
  ⟨mapDelete c.cacheItems key⟩

end KeyValueCache

/-- A compiler AST node (ts.Node): syntax kind, pos (start with trivia),
end, and the ordered child list.  nid models the JS reference identity of
the node object (two distinct node objects have distinct nids). -/
inductive CompilerNode where
  | mk (nid kind pos endP : Nat) (children : List CompilerNode)

/-- Reference identity of the node object. -/
def CompilerNode.nid : CompilerNode → Nat
  | .mk i _ _ _ _ => i

/-- ts.Node.kind. -/
def CompilerNode.kind : CompilerNode → Nat
  | .mk _ k _ _ _ => k

/-- ts.Node.pos (start including leading trivia). -/
def CompilerNode.pos : CompilerNode → Nat
  | .mk _ _ p _ _ => p

/-- ts.Node.end (end is a Lean keyword, hence endP). -/
def CompilerNode.endP : CompilerNode → Nat
  | .mk _ _ _ e _ => e

/-- ts.Node.getChildren(). -/
def CompilerNode.children : CompilerNode → List CompilerNode
  | .mk _ _ _ _ cs => cs

mutual
/-- Ids of all nodes of the subtree in postorder (children first, the
root last) — the order in which Node.dispose reaches them. -/
def subtreeIds : CompilerNode → List Nat
  | .mk i _ _ _ cs => subtreeIdsList cs ++ [i]

/-- Ids of the subtrees of a child list, in order. -/
def subtreeIdsList : List CompilerNode → List Nat
  | [] => []
  | c :: cs => subtreeIds c ++ subtreeIdsList cs
end

/-- Ids of the strict descendants of a node. -/
def descendantIds (n : CompilerNode) : List Nat :=
  subtreeIdsList n.children

/-- The wrapper class Node from src/src/DefaultFileSystemHost.ts.  The
field id models the JS reference identity of the wrapper object; global
and sourceFile model the references held in the class fields (by the
reference identity of their targets). -/
structure Node where
  id : Nat
  global : Nat
  _compilerNode : Option CompilerNode
  sourceFile : Nat

/-- The compilerNode getter: throws InvalidOperationError when the
internal pointer was nulled by disposal. -/
def Node.compilerNodeGet (w : Node) : Except Err CompilerNode :=
  match w._compilerNode with
  | none => .error (.invalidOperation "Attempted to get information from a node that was removed from the AST.")
  | some cn => .ok cn

/-- Node.getKind: reads through the compilerNode getter. -/
def Node.getKind (w : Node) : Except Err Nat :=
  (w.compilerNodeGet).map (fun cn => cn.kind)

/-- Node.getPos: reads through the compilerNode getter. -/
def Node.getPos (w : Node) : Except Err Nat :=
  (w.compilerNodeGet).map (fun cn => cn.pos)

/-- Node.getEnd: reads through the compilerNode getter. -/
def Node.getEnd (w : Node) : Except Err Nat :=
  (w.compilerNodeGet).map (fun cn => cn.endP)

/-- Node.replaceCompilerNode: assigns the internal pointer and nothing
else. -/
def Node.replaceCompilerNode (w : Node) (compilerNode : CompilerNode) : Node :=
  { w with _compilerNode := some compilerNode }

/-- The observable state of the compiler factory: which compiler-node
ids have a cache entry, which wrappers (named by the id of the compiler
node they were cached under) have a nulled internal pointer, and the
ordered trace of disposeOnlyThis events. -/
structure FactoryState where
  cache : List Nat
  nulled : List Nat
  events : List Nat

/-- Node.disposeOnlyThis, acting on the factory state: remove this
wrapper's entry from the cache (CompilerFactory.removeNodeFromCache —
modelled from the spec, section 4.2: deletes the entry, a no-op when
absent; the factory source is not under src) and null the internal
pointer; the event is recorded in the trace. -/
def disposeOnlyThisT (n : CompilerNode) (s : FactoryState) : FactoryState :=
  { cache := s.cache.erase n.nid
    nulled := n.nid :: s.nulled
    events := s.events ++ [n.nid] }

mutual
/-- Node.dispose on the subtree of a live wrapper: dispose every child
(wrappers for the compiler children are live, resolved through the
factory), then disposeOnlyThis. -/
def disposeT : CompilerNode → FactoryState → FactoryState
  | .mk i k p e cs, s => disposeOnlyThisT (.mk i k p e cs) (disposeListT cs s)

/-- dispose over a child list, left to right. -/
def disposeListT : List CompilerNode → FactoryState → FactoryState
  | [], s => s
  | c :: cs, s => disposeListT cs (disposeT c s)
end

/-- Node.dispose at the wrapper: the first statement iterates
this.getChildren(), which reads the compilerNode getter, so a disposed
wrapper throws InvalidOperationError before any state change. -/
def Node.dispose (w : Node) (s : FactoryState) : Except Err FactoryState :=
  match w._compilerNode with
  | none => .error (.invalidOperation "Attempted to get information from a node that was removed from the AST.")
  | some cn => .ok (disposeT cn s)

/-- Node.containsRange(pos, end): getPos() is at most pos and end is at
most getEnd().  Positions are read from the underlying compiler node. -/
def containsRange (n : CompilerNode) (pos «end» : Nat) : Bool :=
  n.pos ≤ pos && «end» ≤ n.endP

/-- The per-child test of Node.getChildAtPos: pos at least child.getPos()
and strictly below child.getEnd(). -/
def childAtPosPred (pos : Nat) (c : CompilerNode) : Bool :=
  c.pos ≤ pos && pos < c.endP

/-- Node.getChildAtPos: undefined when pos lies outside this node,
otherwise the first direct child whose range contains pos. -/
def getChildAtPos (n : CompilerNode) (pos : Nat) : Option CompilerNode :=
  if pos < n.pos || n.endP ≤ pos then none
  else n.children.find? (childAtPosPred pos)

/-- A child returned by getChildAtPos is one of the node's children
(a Prop-valued definition, placed here because descendLoop's
termination argument needs it). -/
def getChildAtPos_mem {n c : CompilerNode} {pos : Nat}
    (h : getChildAtPos n pos = some c) : c ∈ n.children := by
  unfold getChildAtPos at h
  split at h
  · exact absurd h (by simp)
  · exact List.mem_of_find?_eq_some h

/-- sizeOf of a child is below sizeOf of the node (needed for
termination of descendLoop and for the induction principle). -/
def sizeOf_lt_of_mem_children {c n : CompilerNode} (h : c ∈ n.children) :
    sizeOf c < sizeOf n := by
  cases n with
  | mk i k p e cs =>
    simp only [CompilerNode.children] at h
    have := List.sizeOf_lt_of_mem h
    simp only [CompilerNode.mk.sizeOf_spec]
    omega

/-- Induction over a compiler tree with the hypothesis available for
every child. -/
def cnInd {P : CompilerNode → Prop}
    (h : ∀ i k p e cs, (∀ c, c ∈ cs → P c) → P (.mk i k p e cs)) :
    ∀ n, P n
  | .mk i k p e cs => h i k p e cs (fun c hc => cnInd h c)
termination_by n => sizeOf n
decreasing_by exact sizeOf_lt_of_mem_children (n := .mk i k p e cs) hc

/-- The loop of Node.getDescendantAtPos: repeatedly take getChildAtPos
until it is undefined, keeping the deepest node reached. -/
def descendLoop (cur : CompilerNode) (pos : Nat) : CompilerNode :=
  match h : getChildAtPos cur pos with
  | none => cur
  | some c => descendLoop c pos
termination_by sizeOf cur
decreasing_by exact sizeOf_lt_of_mem_children (getChildAtPos_mem h)

/-- Node.getDescendantAtPos: starts with node undefined; when the first
getChildAtPos already returns undefined the result is undefined,
otherwise the deepest node reached by the loop. -/
def getDescendantAtPos (n : CompilerNode) (pos : Nat) : Option CompilerNode :=
  match getChildAtPos n pos with
  | none => none
  | some c => some (descendLoop c pos)

/-- The children tile the interval from p to e: the first child starts
at p, each child ends where the next begins, the last ends at e. -/
def tiledb : Nat → List CompilerNode → Nat → Bool
  | p, [], e => p == e
  | p, c :: cs, e => (c.pos == p) && tiledb c.endP cs e

mutual
/-- Well-formedness of a compiler tree, as the TypeScript compiler
guarantees it (spec, section 3, plus the tiling behaviour of
ts.Node.getChildren): pos at most end, and a non-empty child list tiles
the node's range exactly; recursively for every child. -/
def wfb : CompilerNode → Bool
  | .mk _ _ p e cs => decide (p ≤ e) && (cs.isEmpty || tiledb p cs e) && wfbList cs

/-- Well-formedness of every tree of a child list. -/
def wfbList : List CompilerNode → Bool
  | [] => true
  | c :: cs => wfb c && wfbList cs
end

/-- Node.getPreviousSiblings' loop over the effective parent's children
(the parent syntax list when one wraps the node, else the parent):
prepend each child until reaching this node, identified by JS reference
equality, modelled by wrapper id. -/
def prevSiblingsLoop (self : Node) : List Node → List Node → List Node
  | [], acc => acc
  | c :: rest, acc =>
    if c.id = self.id then acc else prevSiblingsLoop self rest (c :: acc)

/-- Node.getPreviousSiblings: the accumulating loop started empty, so
the closest sibling ends up at index zero. -/
def getPreviousSiblings (parentChildren : List Node) (self : Node) : List Node :=
  prevSiblingsLoop self parentChildren []

/-- Node.getNextSiblings' loop: skip until this node is found, then push
every later child. -/
def nextSiblingsLoop (self : Node) : List Node → Bool → List Node
  | [], _ => []
  | c :: rest, foundChild =>
    if foundChild then c :: nextSiblingsLoop self rest true
    else nextSiblingsLoop self rest (c.id == self.id)

/-- Node.getNextSiblings. -/
def getNextSiblings (parentChildren : List Node) (self : Node) : List Node :=
  nextSiblingsLoop self parentChildren false

/-- Node.isFirstNodeOnLine: scan backward from getStart() minus one;
space and tab continue the scan, a newline returns true, any other
character — and falling off the start of the file — returns false.  The
text is the source file full text, the Nat argument the value of
getStart(). -/
def isFirstNodeOnLine (sourceFileText : List Char) : Nat → Bool
  | 0 => false
  | i + 1 =>
    let currentChar := sourceFileText.get? i
    if currentChar = some ' ' ∨ currentChar = some '\t' then
      isFirstNodeOnLine sourceFileText i
    else if currentChar = some '\n' then true
    else false

/-- CompilerFactory.replaceCompilerNode acting on the factory state.
Modelled from the spec, section 4.2 (the factory source is not under
src): atomically delete the old entry, update the wrapper's internal
pointer, insert the new entry. -/
def replaceCompilerNodeSt (s : FactoryState) (cur new : CompilerNode) : FactoryState :=
  { s with cache := new.nid :: s.cache.erase cur.nid }

mutual
/-- Modelled from the spec, section 4.5 (the file
StraightReplacementNodeHandler.ts is not under src): pair the two child
lists recursively; differing kinds or differing child counts fail;
afterwards rebind the current wrapper to the new compiler node. -/
def straightHandle : FactoryState → CompilerNode → CompilerNode → Except Err FactoryState
  | s, .mk i k p e cs, new =>
    if k ≠ new.kind then
      .error (.generic "Error replacing tree: kind mismatch.")
    else
      match straightHandleList s cs new.children with
      | .error e => .error e
      | .ok s1 => .ok (replaceCompilerNodeSt s1 (.mk i k p e cs) new)

/-- The pairwise walk of the straight replacement handler. -/
def straightHandleList : FactoryState → List CompilerNode → List CompilerNode → Except Err FactoryState
  | s, [], [] => .ok s
  | s, c :: cs, n :: ns =>
    match straightHandle s c n with
    | .error e => .error e
    | .ok s1 => straightHandleList s1 cs ns
  | _, _, _ => .error (.generic "Error replacing tree: child count mismatch.")
end

/-- The first loop of UnwrapParentHandler.handleNode: straight-replace
pairwise while neither iterator is done and the running index is below
childIndex; returns the state and both remainders. -/
def unwrapPairUpTo : Nat → FactoryState → List CompilerNode → List CompilerNode →
    Except Err (FactoryState × List CompilerNode × List CompilerNode)
  | 0, s, cs, ns => .ok (s, cs, ns)
  | _ + 1, s, [], ns => .ok (s, [], ns)
  | _ + 1, s, cs, [] => .ok (s, cs, [])
  | k + 1, s, c :: cs, n :: ns =>
    match straightHandle s c n with
    | .error e => .error e
    | .ok s1 => unwrapPairUpTo k s1 cs ns

/-- AdvancedIterator.next() on an exhausted iterator fails (the iterator
utility is not under src; its next() on a done iterator throws). -/
def iteratorDoneErr : Err := .generic "Cannot get next when at the end of the iterator."

/-- A loop of UnwrapParentHandler.handleNode that straight-replaces each
node of the first list against the next node pulled from the new-side
iterator; pulling from an exhausted iterator fails.  Returns the state
and what is left of the new side. -/
def pairWithNew : FactoryState → List CompilerNode → List CompilerNode →
    Except Err (FactoryState × List CompilerNode)
  | s, [], ns => .ok (s, ns)
  | _, _ :: _, [] => .error iteratorDoneErr
  | s, c :: cs, n :: ns =>
    match straightHandle s c n with
    | .error e => .error e
    | .ok s1 => pairWithNew s1 cs ns

mutual
/-- The local disposeNodes function of UnwrapParentHandler.handleNode:
dispose the unwrapped child's subtree depth-first, except that the child
syntax list (identified by reference, modelled by node id) is disposed
with disposeOnlyThis and its subtree is kept. -/
def disposeNodesExcept (childSyntaxList : CompilerNode) : CompilerNode → FactoryState → FactoryState
  | .mk i k p e cs, s =>
    if i = childSyntaxList.nid then disposeOnlyThisT (.mk i k p e cs) s
    else disposeOnlyThisT (.mk i k p e cs) (disposeChildrenExcept childSyntaxList cs s)

/-- disposeNodes over a child list, left to right. -/
def disposeChildrenExcept (childSyntaxList : CompilerNode) : List CompilerNode → FactoryState → FactoryState
  | [], s => s
  | c :: cs, s => disposeChildrenExcept childSyntaxList cs (disposeNodesExcept childSyntaxList c s)
end

/-- UnwrapParentHandler.handleNode from src/unnamed/part_000.  The
cslOf argument models Node.getChildSyntaxList (its TypeGuards and body
traversal depend on wrapper subclasses not under src; per the spec,
section 4.3, it walks body layers and yields the inner syntax list, or
undefined).  The phases: pair up to childIndex, pull the unwrapped
child, re-host its syntax list's children against the next new
children, dispose the unwrapped subtree except the syntax list, pair
the remaining current children, and finally require the new iterator to
be exhausted before rebinding the parent. -/
def unwrapHandleNode (cslOf : CompilerNode → Option CompilerNode) (childIndex : Nat)
    (s : FactoryState) (currentNode newNode : CompilerNode) : Except Err FactoryState :=
  match unwrapPairUpTo childIndex s currentNode.children newNode.children with
  | .error e => .error e
  | .ok (s1, curRest, newRest) =>
    match curRest with
    | [] => .error iteratorDoneErr
    | currentChild :: curRest =>
      match cslOf currentChild with
      | none => .error (.invalidOperation "A child syntax list was expected.")
      | some childSyntaxList =>
        match pairWithNew s1 childSyntaxList.children newRest with
        | .error e => .error e
        | .ok (s2, newRest2) =>
          let s2 := disposeNodesExcept childSyntaxList currentChild s2
          match pairWithNew s2 curRest newRest2 with
          | .error e => .error e
          | .ok (s3, newRest3) =>
            if newRest3.isEmpty then
              .ok (replaceCompilerNodeSt s3 currentNode newNode)
            else
              .error (.generic "Error replacing tree: Should not have more children left over.")

end TsAst

section Checks
open TsAst

example : KeyValueCache.replaceKey ⟨[(1, .num 5)]⟩ 1 2 = .ok ⟨[(2, .num 5)]⟩ := rfl
example : KeyValueCache.replaceKey ⟨[(1, .num 5)]⟩ 2 3 = .error (.generic "Key not found.") := rfl
example : KeyValueCache.get ⟨[(1, .num 0)]⟩ 1 = none := by decide
example : (KeyValueCache.getOrCreate ⟨[(1, .num 0)]⟩ 1 (fun _ => .num 7)) = (.num 7, ⟨[(1, .num 7)]⟩, true) := by decide

example : subtreeIds (.mk 1 0 0 5 [.mk 2 0 0 3 [], .mk 3 0 3 5 []]) = [2, 3, 1] := rfl
example : (disposeT (.mk 1 0 0 5 [.mk 2 0 0 3 []]) ⟨[1, 2, 9], [], []⟩).cache = [9] := rfl
example : (disposeT (.mk 1 0 0 5 [.mk 2 0 0 3 []]) ⟨[1, 2, 9], [], []⟩).events = [2, 1] := rfl

example : wfb (.mk 0 0 0 3 [.mk 1 0 0 2 [], .mk 2 0 2 3 []]) = true := rfl
example : getDescendantAtPos (.mk 0 0 0 3 [.mk 1 0 0 2 [], .mk 2 0 2 3 []]) 2 = some (.mk 2 0 2 3 []) := by
  simp [getDescendantAtPos, getChildAtPos, childAtPosPred, CompilerNode.children,
    CompilerNode.pos, CompilerNode.endP, List.find?]
  rw [descendLoop]
  simp [getChildAtPos, childAtPosPred, CompilerNode.children, CompilerNode.pos, CompilerNode.endP, List.find?]
example : getDescendantAtPos (.mk 0 0 0 3 []) 2 = none := rfl
example : isFirstNodeOnLine "\n  x".toList 3 = true := rfl
example : isFirstNodeOnLine "  x".toList 2 = false := rfl
example : isFirstNodeOnLine "abc".toList 0 = false := rfl
example :
    getPreviousSiblings [⟨1, 0, none, 0⟩, ⟨2, 0, none, 0⟩, ⟨3, 0, none, 0⟩] ⟨2, 0, none, 0⟩
      = [⟨1, 0, none, 0⟩] := rfl
example :
    getNextSiblings [⟨1, 0, none, 0⟩, ⟨2, 0, none, 0⟩, ⟨3, 0, none, 0⟩] ⟨2, 0, none, 0⟩
      = [⟨3, 0, none, 0⟩] := rfl

end Checks

open TsAst

/-! ## Helper lemmas -/

theorem mapGet_nil (k : Nat) : mapGet [] k = none := rfl

theorem mapGet_cons (a : Nat × JsVal) (rest : List (Nat × JsVal)) (k : Nat) :
    mapGet (a :: rest) k = if a.1 = k then some a.2 else mapGet rest k := by
  by_cases h : a.1 = k <;> simp [mapGet, List.find?_cons, h]

theorem mapGet_set_self (items : List (Nat × JsVal)) (k : Nat) (v : JsVal) :
    mapGet (mapSet items k v) k = some v := by
  induction items with
  | nil => simp [mapSet, mapGet_cons]
  | cons a rest ih =>
    by_cases h : a.1 = k
    · simp [mapSet, h, mapGet_cons]
    · simp [mapSet, h, mapGet_cons, ih]

theorem mapGet_set_ne {items : List (Nat × JsVal)} {k k' : Nat} {v : JsVal}
    (hne : k' ≠ k) : mapGet (mapSet items k v) k' = mapGet items k' := by
  have hkk : ¬ ((k, v).1 = k') := fun hh => hne hh.symm
  induction items with
  | nil =>
    rw [show mapSet [] k v = [(k, v)] from rfl, mapGet_cons, if_neg hkk]
  | cons a rest ih =>
    rw [show mapSet (a :: rest) k v
        = if a.1 = k then (k, v) :: rest else a :: mapSet rest k v from rfl]
    by_cases h : a.1 = k
    · rw [if_pos h, mapGet_cons, mapGet_cons, if_neg hkk, if_neg (h ▸ hkk)]
    · rw [if_neg h, mapGet_cons, mapGet_cons, ih]

theorem mapGet_delete_self (items : List (Nat × JsVal)) (k : Nat) :
    mapGet (mapDelete items k) k = none := by
  unfold mapGet
  rw [List.find?_eq_none.mpr]
  · rfl
  · intro p hp
    have := List.of_mem_filter hp
    simp at this ⊢
    exact this

theorem mapHas_of_get {items : List (Nat × JsVal)} {k : Nat} {v : JsVal}
    (h : mapGet items k = some v) : mapHas items k = true := by
  unfold mapGet at h
  cases hf : items.find? (fun p => p.1 == k) with
  | none => rw [hf] at h; simp at h
  | some p =>
    have hm := List.mem_of_find?_eq_some hf
    have hp := List.find?_some hf
    exact List.any_eq_true.mpr ⟨p, hm, hp⟩

/-! ## C8 -/

/-- C8: Node.replaceCompilerNode changes only the internal compiler-node
pointer; the wrapper's identity, its sourceFile reference and its global
container reference are unchanged, so existing references to the wrapper
stay valid after a reparse. -/
theorem c8_replaceCompilerNode_preserves_identity (w : Node) (cn : CompilerNode) :
    (w.replaceCompilerNode cn).id = w.id ∧
    (w.replaceCompilerNode cn).sourceFile = w.sourceFile ∧
    (w.replaceCompilerNode cn).global = w.global ∧
    (w.replaceCompilerNode cn)._compilerNode = some cn :=
  ⟨rfl, rfl, rfl, rfl⟩

/-! ## C4 -/

/-- C4: on a disposed wrapper (nulled internal pointer) the compilerNode
getter throws InvalidOperationError, and therefore every operation that
reads through it — any function of the compiler node, in particular
getKind, getPos and getEnd — fails with that InvalidOperationError. -/
theorem c4_disposed_wrapper_fails (w : Node) (h : w._compilerNode = none) :
    w.compilerNodeGet = .error (.invalidOperation "Attempted to get information from a node that was removed from the AST.") ∧
    (∀ (β : Type) (f : CompilerNode → β),
      w.compilerNodeGet.map f = .error (.invalidOperation "Attempted to get information from a node that was removed from the AST.")) ∧
    w.getKind = .error (.invalidOperation "Attempted to get information from a node that was removed from the AST.") ∧
    w.getPos = .error (.invalidOperation "Attempted to get information from a node that was removed from the AST.") ∧
    w.getEnd = .error (.invalidOperation "Attempted to get information from a node that was removed from the AST.") := by
  have hg : w.compilerNodeGet = .error (.invalidOperation "Attempted to get information from a node that was removed from the AST.") := by
    simp [Node.compilerNodeGet, h]
  refine ⟨hg, fun β f => ?_, ?_, ?_, ?_⟩ <;>
    simp [Node.getKind, Node.getPos, Node.getEnd, hg, Except.map]

theorem c4_witness :
    (⟨0, 0, none, 0⟩ : Node)._compilerNode = none ∧
    (⟨0, 0, none, 0⟩ : Node).compilerNodeGet = .error (.invalidOperation "Attempted to get information from a node that was removed from the AST.") :=
  ⟨rfl, (c4_disposed_wrapper_fails ⟨0, 0, none, 0⟩ rfl).1⟩

/-! ## C3 -/

/-- C3 counterexample: disposing an already-disposed wrapper is not a
no-op — at this concrete disposed wrapper, dispose() raises
InvalidOperationError (its first step, getChildren(), reads the
compilerNode getter). -/
theorem c3_counterexample :
    Node.dispose ⟨0, 0, none, 0⟩ ⟨[], [], []⟩ =
      .error (.invalidOperation "Attempted to get information from a node that was removed from the AST.") := rfl

/-- C3 amended: calling dispose() on an already-disposed wrapper throws
InvalidOperationError before touching any state (the cache and the
wrapper are left unchanged because the error is raised by the first
read of compilerNode inside getChildren). -/
theorem c3_dispose_on_disposed_throws (w : Node) (s : FactoryState)
    (h : w._compilerNode = none) :
    Node.dispose w s =
      .error (.invalidOperation "Attempted to get information from a node that was removed from the AST.") := by
  simp [Node.dispose, h]

theorem c3_witness :
    (⟨7, 0, none, 3⟩ : Node)._compilerNode = none ∧
    Node.dispose ⟨7, 0, none, 3⟩ ⟨[1, 2], [], []⟩ =
      .error (.invalidOperation "Attempted to get information from a node that was removed from the AST.") :=
  ⟨rfl, c3_dispose_on_disposed_throws ⟨7, 0, none, 3⟩ ⟨[1, 2], [], []⟩ rfl⟩

/-! ## C10 -/

theorem isFirstNodeOnLine_true_reaches_newline (text : List Char) :
    ∀ n, isFirstNodeOnLine text n = true →
      ∃ j, j < n ∧ text.get? j = some '\n' ∧
        ∀ m, j < m → m < n → text.get? m = some ' ' ∨ text.get? m = some '\t' := by
  intro n
  induction n with
  | zero => intro h; simp [isFirstNodeOnLine] at h
  | succ i ih =>
    intro h
    rw [isFirstNodeOnLine] at h
    by_cases hsp : text.get? i = some ' ' ∨ text.get? i = some '\t'
    · rw [if_pos hsp] at h
      obtain ⟨j, hj, hnl, hbet⟩ := ih h
      refine ⟨j, Nat.lt_succ_of_lt hj, hnl, fun m hm1 hm2 => ?_⟩
      by_cases hmi : m = i
      · subst hmi; exact hsp
      · exact hbet m hm1 (by omega)
    · rw [if_neg hsp] at h
      by_cases hnl : text.get? i = some '\n'
      · exact ⟨i, Nat.lt_succ_self i, hnl, fun m hm1 hm2 => by omega⟩
      · rw [if_neg hnl] at h; exact absurd h (by simp)

theorem isFirstNodeOnLine_all_space_false (text : List Char) :
    ∀ n, (∀ j, j < n → text.get? j = some ' ' ∨ text.get? j = some '\t') →
      isFirstNodeOnLine text n = false := by
  intro n
  induction n with
  | zero => intro _; rfl
  | succ i ih =>
    intro hall
    rw [isFirstNodeOnLine]
    rw [if_pos (hall i (Nat.lt_succ_self i))]
    exact ih (fun j hj => hall j (Nat.lt_succ_of_lt hj))

/-- C10: isFirstNodeOnLine returns true only when the backward scan from
getStart() over spaces and tabs actually reaches a newline; when every
character before the start is a space or tab (in particular for a node
starting at position 0) it returns false. -/
theorem c10_isFirstNodeOnLine (text : List Char) (n : Nat) :
    (isFirstNodeOnLine text n = true →
      ∃ j, j < n ∧ text.get? j = some '\n' ∧
        ∀ m, j < m → m < n → text.get? m = some ' ' ∨ text.get? m = some '\t') ∧
    ((∀ j, j < n → text.get? j = some ' ' ∨ text.get? j = some '\t') →
      isFirstNodeOnLine text n = false) ∧
    isFirstNodeOnLine text 0 = false :=
  ⟨isFirstNodeOnLine_true_reaches_newline text n,
   isFirstNodeOnLine_all_space_false text n, rfl⟩

theorem c10_witness :
    isFirstNodeOnLine "  x".toList 2 = false ∧ isFirstNodeOnLine "\n x".toList 2 = true :=
  ⟨(c10_isFirstNodeOnLine "  x".toList 2).2.1 (by decide), by decide⟩

/-! ## C9 -/

/-- C9: for a key whose stored value is falsy (0, empty string, false,
null), KeyValueCache.get coerces the value to undefined even though the
entry exists, so getOrCreate invokes createFunc again and overwrites the
existing entry. -/
theorem c9_falsy_value_get_getOrCreate (c : KeyValueCache) (k : Nat) (v : JsVal)
    (f : Unit → JsVal)
    (hmem : mapGet c.cacheItems k = some v) (hfalsy : truthy v = false) :
    KeyValueCache.get c k = none ∧
    KeyValueCache.getOrCreate c k f = (f (), KeyValueCache.set c k (f ()), true) ∧
    mapGet (KeyValueCache.set c k (f ())).cacheItems k = some (f ()) := by
  have hget : KeyValueCache.get c k = none := by
    simp [KeyValueCache.get, hmem, hfalsy]
  refine ⟨hget, ?_, ?_⟩
  · simp [KeyValueCache.getOrCreate, hget]
  · exact mapGet_set_self c.cacheItems k (f ())

theorem c9_witness :
    mapGet (⟨[(1, .num 0)]⟩ : KeyValueCache).cacheItems 1 = some (.num 0) ∧
    truthy (.num 0) = false ∧
    KeyValueCache.get ⟨[(1, .num 0)]⟩ 1 = none ∧
    KeyValueCache.getOrCreate ⟨[(1, .num 0)]⟩ 1 (fun _ => .str "x")
      = (.str "x", KeyValueCache.set ⟨[(1, .num 0)]⟩ 1 (.str "x"), true) :=
  ⟨by decide, by decide,
    (c9_falsy_value_get_getOrCreate ⟨[(1, .num 0)]⟩ 1 (.num 0) (fun _ => .str "x") (by decide) (by decide)).1,
    (c9_falsy_value_get_getOrCreate ⟨[(1, .num 0)]⟩ 1 (.num 0) (fun _ => .str "x") (by decide) (by decide)).2.1⟩

/-! ## C5 -/

/-- C5 counterexample: replaceKey on a key that is not in the cache does
not fail with the repository's InvalidOperationError (the class thrown
by Node.compilerNode); it throws the plain built-in Error with message
"Key not found." — shown here on the cache containing only key 1,
replacing missing key 2. -/
theorem c5_counterexample :
    KeyValueCache.replaceKey ⟨[(1, .num 5)]⟩ 2 3 = .error (.generic "Key not found.") ∧
    ∀ msg, KeyValueCache.replaceKey ⟨[(1, .num 5)]⟩ 2 3 ≠ .error (.invalidOperation msg) := by
  refine ⟨rfl, fun msg h => ?_⟩
  rw [show KeyValueCache.replaceKey ⟨[(1, .num 5)]⟩ 2 3
      = .error (.generic "Key not found.") from rfl] at h
  simp at h

/-- C5 amended: with the entry present under k1 and k2 a different key,
replaceKey(k1, k2) yields a cache holding the value under k2, and
get(k1) afterwards returns undefined; replaceKey on a missing key fails
with the plain Error "Key not found." (not with the repository's
InvalidOperationError class). -/
theorem c5_replaceKey (c : KeyValueCache) (k1 k2 : Nat) (v : JsVal)
    (hget : mapGet c.cacheItems k1 = some v) (hne : k1 ≠ k2) :
    (∃ c', KeyValueCache.replaceKey c k1 k2 = .ok c' ∧
      mapGet c'.cacheItems k2 = some v ∧
      KeyValueCache.get c' k1 = none) ∧
    (∀ km, mapHas c.cacheItems km = false →
      ∀ kn, KeyValueCache.replaceKey c km kn = .error (.generic "Key not found.")) := by
  constructor
  · have hhas : mapHas c.cacheItems k1 = true := mapHas_of_get hget
    refine ⟨⟨mapSet (mapDelete c.cacheItems k1) k2 ((mapGet c.cacheItems k1).getD .undef)⟩, ?_, ?_, ?_⟩
    · simp [KeyValueCache.replaceKey, hhas]
    · rw [hget]
      exact mapGet_set_self (mapDelete c.cacheItems k1) k2 v
    · have h1 : mapGet (mapSet (mapDelete c.cacheItems k1) k2 ((mapGet c.cacheItems k1).getD .undef)) k1
          = mapGet (mapDelete c.cacheItems k1) k1 := mapGet_set_ne hne
      have h2 := mapGet_delete_self c.cacheItems k1
      simp [KeyValueCache.get, h1, h2]
  · intro km hkm kn
    simp [KeyValueCache.replaceKey, hkm]

theorem c5_witness :
    mapGet (⟨[(1, .str "a")]⟩ : KeyValueCache).cacheItems 1 = some (.str "a") ∧
    ∃ c', KeyValueCache.replaceKey ⟨[(1, .str "a")]⟩ 1 2 = .ok c' ∧
      mapGet c'.cacheItems 2 = some (.str "a") ∧
      KeyValueCache.get c' 1 = none :=
  ⟨by decide, (c5_replaceKey ⟨[(1, .str "a")]⟩ 1 2 (.str "a") (by decide) (by decide)).1⟩

/-! ## C7 -/

theorem prevSiblingsLoop_spec (self : Node) (b : List Node) :
    ∀ (a : List Node) (acc : List Node), (∀ x ∈ a, x.id ≠ self.id) →
      prevSiblingsLoop self (a ++ self :: b) acc = a.reverse ++ acc := by
  intro a
  induction a with
  | nil =>
    intro acc _
    simp [prevSiblingsLoop]
  | cons x rest ih =>
    intro acc ha
    rw [List.cons_append, prevSiblingsLoop,
      if_neg (ha x (List.mem_cons_self x rest))]
    rw [ih (x :: acc) (fun y hy => ha y (List.mem_cons_of_mem x hy))]
    simp

theorem nextSiblingsLoop_found (self : Node) :
    ∀ b : List Node, nextSiblingsLoop self b true = b := by
  intro b
  induction b with
  | nil => rfl
  | cons x rest ih => rw [nextSiblingsLoop, if_pos rfl, ih]

theorem nextSiblingsLoop_spec (self : Node) (b : List Node) :
    ∀ a : List Node, (∀ x ∈ a, x.id ≠ self.id) →
      nextSiblingsLoop self (a ++ self :: b) false = b := by
  intro a
  induction a with
  | nil =>
    intro _
    rw [List.nil_append, nextSiblingsLoop]
    simp only [Bool.false_eq_true, if_neg, beq_self_eq_true]
    exact nextSiblingsLoop_found self b
  | cons x rest ih =>
    intro ha
    rw [List.cons_append, nextSiblingsLoop]
    simp only [Bool.false_eq_true, if_neg]
    rw [show (x.id == self.id) = false from beq_eq_false_iff_ne.mpr (ha x (List.mem_cons_self x rest))]
    exact ih (fun y hy => ha y (List.mem_cons_of_mem x hy))

/-- C7: when the effective parent's child sequence is a ++ self :: b and
self occurs nowhere in a (wrapper uniqueness: identity comparison finds
only the one occurrence), getPreviousSiblings returns a reversed
(closest sibling at index 0), getNextSiblings returns b, and
previousSiblings reversed, then the node, then nextSiblings reassembles
the parent's children sequence in source order. -/
theorem c7_siblings_recompose (parentChildren a b : List Node) (self : Node)
    (hdecomp : parentChildren = a ++ self :: b)
    (ha : ∀ x ∈ a, x.id ≠ self.id) :
    getPreviousSiblings parentChildren self = a.reverse ∧
    getNextSiblings parentChildren self = b ∧
    (getPreviousSiblings parentChildren self).reverse
      ++ self :: getNextSiblings parentChildren self = parentChildren := by
  subst hdecomp
  have hprev : getPreviousSiblings (a ++ self :: b) self = a.reverse := by
    rw [getPreviousSiblings, prevSiblingsLoop_spec self b a [] ha, List.append_nil]
  have hnext : getNextSiblings (a ++ self :: b) self = b :=
    nextSiblingsLoop_spec self b a ha
  refine ⟨hprev, hnext, ?_⟩
  rw [hprev, hnext, List.reverse_reverse]

theorem c7_witness :
    getPreviousSiblings [⟨1, 0, none, 0⟩, ⟨2, 0, none, 0⟩, ⟨3, 0, none, 0⟩] ⟨2, 0, none, 0⟩
        = [⟨1, 0, none, 0⟩] ∧
    getNextSiblings [⟨1, 0, none, 0⟩, ⟨2, 0, none, 0⟩, ⟨3, 0, none, 0⟩] ⟨2, 0, none, 0⟩
        = [⟨3, 0, none, 0⟩] ∧
    (getPreviousSiblings [⟨1, 0, none, 0⟩, ⟨2, 0, none, 0⟩, ⟨3, 0, none, 0⟩] ⟨2, 0, none, 0⟩).reverse
        ++ (⟨2, 0, none, 0⟩ : Node) :: getNextSiblings [⟨1, 0, none, 0⟩, ⟨2, 0, none, 0⟩, ⟨3, 0, none, 0⟩] ⟨2, 0, none, 0⟩
        = [⟨1, 0, none, 0⟩, ⟨2, 0, none, 0⟩, ⟨3, 0, none, 0⟩] := by
  have h := c7_siblings_recompose [⟨1, 0, none, 0⟩, ⟨2, 0, none, 0⟩, ⟨3, 0, none, 0⟩]
    [⟨1, 0, none, 0⟩] [⟨3, 0, none, 0⟩] ⟨2, 0, none, 0⟩ rfl
    (by intro x hx; simp at hx; subst hx; decide)
  simpa using h

/-! ## C1 -/

theorem disposeListT_state (cs : List CompilerNode)
    (hp : ∀ c ∈ cs, ∀ s : FactoryState,
      (disposeT c s).cache = (subtreeIds c).foldl (fun acc j => acc.erase j) s.cache ∧
      (disposeT c s).nulled = (subtreeIds c).reverse ++ s.nulled ∧
      (disposeT c s).events = s.events ++ subtreeIds c) :
    ∀ s : FactoryState,
      (disposeListT cs s).cache = (subtreeIdsList cs).foldl (fun acc j => acc.erase j) s.cache ∧
      (disposeListT cs s).nulled = (subtreeIdsList cs).reverse ++ s.nulled ∧
      (disposeListT cs s).events = s.events ++ subtreeIdsList cs := by
  induction cs with
  | nil => intro s; simp [disposeListT, subtreeIdsList]
  | cons c rest ih =>
    intro s
    obtain ⟨hc1, hc2, hc3⟩ := hp c (List.mem_cons_self c rest) s
    obtain ⟨hr1, hr2, hr3⟩ :=
      ih (fun c' hc' => hp c' (List.mem_cons_of_mem c hc')) (disposeT c s)
    rw [show disposeListT (c :: rest) s = disposeListT rest (disposeT c s) from rfl]
    rw [show subtreeIdsList (c :: rest) = subtreeIds c ++ subtreeIdsList rest from rfl]
    refine ⟨?_, ?_, ?_⟩
    · rw [hr1, hc1, List.foldl_append]
    · rw [hr2, hc2, List.reverse_append, List.append_assoc]
    · rw [hr3, hc3, List.append_assoc]

theorem disposeT_state : ∀ n : CompilerNode, ∀ s : FactoryState,
    (disposeT n s).cache = (subtreeIds n).foldl (fun acc j => acc.erase j) s.cache ∧
    (disposeT n s).nulled = (subtreeIds n).reverse ++ s.nulled ∧
    (disposeT n s).events = s.events ++ subtreeIds n := by
  intro n
  induction n using cnInd with
  | h i k p e cs ih =>
    intro s
    obtain ⟨hl1, hl2, hl3⟩ := disposeListT_state cs ih s
    rw [show disposeT (.mk i k p e cs) s
        = disposeOnlyThisT (.mk i k p e cs) (disposeListT cs s) from rfl]
    rw [show subtreeIds (.mk i k p e cs) = subtreeIdsList cs ++ [i] from rfl]
    refine ⟨?_, ?_, ?_⟩
    · simp only [disposeOnlyThisT, CompilerNode.nid, hl1, List.foldl_append, List.foldl_cons,
        List.foldl_nil]
    · simp only [disposeOnlyThisT, CompilerNode.nid, hl2, List.reverse_append,
        List.reverse_cons, List.reverse_nil, List.nil_append, List.cons_append]
    · simp only [disposeOnlyThisT, CompilerNode.nid, hl3, List.append_assoc]

theorem not_mem_foldl_erase_of_not_mem {i : Nat} :
    ∀ (ids c : List Nat), i ∉ c → i ∉ ids.foldl (fun acc j => acc.erase j) c := by
  intro ids
  induction ids with
  | nil => intro c hc; simpa using hc
  | cons j rest ih =>
    intro c hc
    rw [List.foldl_cons]
    exact ih (c.erase j) (fun hmem => hc (List.mem_of_mem_erase hmem))

theorem not_mem_foldl_erase_of_mem :
    ∀ (ids c : List Nat), c.Nodup → ∀ i ∈ ids, i ∉ ids.foldl (fun acc j => acc.erase j) c := by
  intro ids
  induction ids with
  | nil => intro c _ i hi; simp at hi
  | cons j rest ih =>
    intro c hc i hi
    rw [List.foldl_cons]
    rcases List.mem_cons.mp hi with hij | hir
    · subst hij
      refine not_mem_foldl_erase_of_not_mem rest (c.erase i) (fun hmem => ?_)
      exact (hc.mem_erase_iff.mp hmem).1 rfl
    · exact ih (c.erase j) (hc.erase j) i hir

/-- C1: disposing a non-disposed wrapper succeeds and works depth-first:
the disposeOnlyThis trace lists every descendant before the wrapper's
own compiler node, and afterwards every node id of the subtree (the
wrapper included) is gone from the cache and its wrapper's internal
pointer is nulled.  The cache is assumed duplicate-free (wrapper
uniqueness, spec section 3). -/
theorem c1_dispose_depth_first (w : Node) (cn : CompilerNode) (s : FactoryState)
    (hw : w._compilerNode = some cn) (hcache : s.cache.Nodup) :
    ∃ s', Node.dispose w s = .ok s' ∧
      (∃ t, s'.events = s.events ++ t ++ [cn.nid] ∧ ∀ d ∈ descendantIds cn, d ∈ t) ∧
      (∀ i ∈ subtreeIds cn, i ∉ s'.cache) ∧
      (∀ i ∈ subtreeIds cn, i ∈ s'.nulled) := by
  obtain ⟨h1, h2, h3⟩ := disposeT_state cn s
  refine ⟨disposeT cn s, by simp [Node.dispose, hw], ?_, ?_, ?_⟩
  · refine ⟨descendantIds cn, ?_, fun d hd => hd⟩
    rw [h3]
    cases cn with
    | mk i k p e cs =>
      rw [show subtreeIds (.mk i k p e cs) = subtreeIdsList cs ++ [i] from rfl]
      rw [show descendantIds (.mk i k p e cs) = subtreeIdsList cs from rfl]
      rw [show (CompilerNode.mk i k p e cs).nid = i from rfl, List.append_assoc]
  · intro i hi
    rw [h1]
    exact not_mem_foldl_erase_of_mem (subtreeIds cn) s.cache hcache i hi
  · intro i hi
    rw [h2]
    exact List.mem_append_left _ (List.mem_reverse.mpr hi)

theorem c1_witness :
    (⟨5, 0, some (.mk 1 0 0 4 [.mk 2 0 0 2 [], .mk 3 0 2 4 []]), 0⟩ : Node)._compilerNode
        = some (.mk 1 0 0 4 [.mk 2 0 0 2 [], .mk 3 0 2 4 []]) ∧
    ([1, 2, 3, 7] : List Nat).Nodup ∧
    ∃ s', Node.dispose ⟨5, 0, some (.mk 1 0 0 4 [.mk 2 0 0 2 [], .mk 3 0 2 4 []]), 0⟩ ⟨[1, 2, 3, 7], [], []⟩ = .ok s' ∧
      (∃ t, s'.events = [] ++ t ++ [(CompilerNode.mk 1 0 0 4 [.mk 2 0 0 2 [], .mk 3 0 2 4 []]).nid] ∧
        ∀ d ∈ descendantIds (.mk 1 0 0 4 [.mk 2 0 0 2 [], .mk 3 0 2 4 []]), d ∈ t) ∧
      (∀ i ∈ subtreeIds (.mk 1 0 0 4 [.mk 2 0 0 2 [], .mk 3 0 2 4 []]), i ∉ s'.cache) ∧
      (∀ i ∈ subtreeIds (.mk 1 0 0 4 [.mk 2 0 0 2 [], .mk 3 0 2 4 []]), i ∈ s'.nulled) :=
  ⟨rfl, by decide,
    c1_dispose_depth_first ⟨5, 0, some (.mk 1 0 0 4 [.mk 2 0 0 2 [], .mk 3 0 2 4 []]), 0⟩
      (.mk 1 0 0 4 [.mk 2 0 0 2 [], .mk 3 0 2 4 []]) ⟨[1, 2, 3, 7], [], []⟩ rfl (by decide)⟩

/-! ## C2 -/

theorem band_true {a b : Bool} (h : (a && b) = true) : a = true ∧ b = true := by
  simp only [Bool.and_eq_true] at h; exact h

theorem bor_true {a b : Bool} (h : (a || b) = true) : a = true ∨ b = true := by
  simp only [Bool.or_eq_true] at h; exact h

theorem wfb_parts {i k p e : Nat} {cs : List CompilerNode}
    (h : wfb (.mk i k p e cs) = true) :
    p ≤ e ∧ (cs.isEmpty || tiledb p cs e) = true ∧ wfbList cs = true := by
  rw [show wfb (.mk i k p e cs)
      = (decide (p ≤ e) && (cs.isEmpty || tiledb p cs e) && wfbList cs) from rfl] at h
  simp only [Bool.and_eq_true, decide_eq_true_eq] at h
  exact ⟨h.1.1, h.1.2, h.2⟩

theorem wfb_le {c : CompilerNode} (h : wfb c = true) : c.pos ≤ c.endP := by
  cases c with
  | mk i k p e cs => exact (wfb_parts h).1

theorem wfbList_mem : ∀ cs : List CompilerNode, wfbList cs = true →
    ∀ c ∈ cs, wfb c = true := by
  intro cs
  induction cs with
  | nil => intro _ c hc; simp at hc
  | cons c rest ih =>
    intro h c' hc'
    rw [show wfbList (c :: rest) = (wfb c && wfbList rest) from rfl] at h
    rcases List.mem_cons.mp hc' with rfl | hr
    · exact (band_true h).1
    · exact ih (band_true h).2 c' hr

theorem childAtPosPred_iff {pos : Nat} {c : CompilerNode} :
    childAtPosPred pos c = true ↔ c.pos ≤ pos ∧ pos < c.endP := by
  simp [childAtPosPred]

theorem tiled_exists : ∀ (cs : List CompilerNode) (p e pos : Nat),
    tiledb p cs e = true → p ≤ pos → pos < e →
    ∃ c ∈ cs, childAtPosPred pos c = true := by
  intro cs
  induction cs with
  | nil =>
    intro p e pos ht h1 h2
    rw [show tiledb p [] e = (p == e) from rfl] at ht
    have := beq_iff_eq.mp ht
    omega
  | cons c rest ih =>
    intro p e pos ht h1 h2
    rw [show tiledb p (c :: rest) e = ((c.pos == p) && tiledb c.endP rest e) from rfl] at ht
    obtain ⟨hcp, htr⟩ := band_true ht
    have hcp' := beq_iff_eq.mp hcp
    by_cases hlt : pos < c.endP
    · exact ⟨c, List.mem_cons_self c rest, childAtPosPred_iff.mpr ⟨by omega, hlt⟩⟩
    · obtain ⟨c', hc', hp'⟩ := ih c.endP e pos htr (by omega) h2
      exact ⟨c', List.mem_cons_of_mem c hc', hp'⟩

theorem tiled_lb : ∀ (cs : List CompilerNode) (p e : Nat),
    tiledb p cs e = true → (∀ c ∈ cs, c.pos ≤ c.endP) →
    ∀ c ∈ cs, p ≤ c.pos := by
  intro cs
  induction cs with
  | nil => intro p e _ _ c hc; simp at hc
  | cons c rest ih =>
    intro p e ht hb c' hc'
    rw [show tiledb p (c :: rest) e = ((c.pos == p) && tiledb c.endP rest e) from rfl] at ht
    obtain ⟨hcp, htr⟩ := band_true ht
    have hcp' := beq_iff_eq.mp hcp
    rcases List.mem_cons.mp hc' with rfl | hr
    · omega
    · have hce := hb c (List.mem_cons_self c rest)
      have := ih c.endP e htr (fun x hx => hb x (List.mem_cons_of_mem c hx)) c' hr
      omega

theorem tiled_unique : ∀ (cs : List CompilerNode) (p e pos : Nat),
    tiledb p cs e = true → (∀ c ∈ cs, c.pos ≤ c.endP) →
    ∀ c1 ∈ cs, ∀ c2 ∈ cs,
      childAtPosPred pos c1 = true → childAtPosPred pos c2 = true → c1 = c2 := by
  intro cs
  induction cs with
  | nil => intro p e pos _ _ c1 hc1; simp at hc1
  | cons c rest ih =>
    intro p e pos ht hb c1 hc1 c2 hc2 hp1 hp2
    rw [show tiledb p (c :: rest) e = ((c.pos == p) && tiledb c.endP rest e) from rfl] at ht
    obtain ⟨hcp, htr⟩ := band_true ht
    have hbr : ∀ x ∈ rest, x.pos ≤ x.endP := fun x hx => hb x (List.mem_cons_of_mem c hx)
    rcases List.mem_cons.mp hc1 with rfl | h1 <;> rcases List.mem_cons.mp hc2 with rfl | h2
    · rfl
    · have hl := tiled_lb rest c1.endP e htr hbr c2 h2
      obtain ⟨ha1, hb1⟩ := childAtPosPred_iff.mp hp1
      obtain ⟨ha2, hb2⟩ := childAtPosPred_iff.mp hp2
      omega
    · have hl := tiled_lb rest c2.endP e htr hbr c1 h1
      obtain ⟨ha1, hb1⟩ := childAtPosPred_iff.mp hp1
      obtain ⟨ha2, hb2⟩ := childAtPosPred_iff.mp hp2
      omega
    · exact ih c.endP e pos htr hbr c1 h1 c2 h2 hp1 hp2

theorem getChildAtPos_sound {n c : CompilerNode} {pos : Nat}
    (h : getChildAtPos n pos = some c) :
    childAtPosPred pos c = true ∧ c ∈ n.children := by
  refine ⟨?_, getChildAtPos_mem h⟩
  unfold getChildAtPos at h
  split at h
  · simp at h
  · exact List.find?_some h

theorem getChildAtPos_exists {i k p e : Nat} {cs : List CompilerNode} {pos : Nat}
    (hwf : wfb (.mk i k p e cs) = true) (hne : cs ≠ [])
    (h1 : p ≤ pos) (h2 : pos < e) :
    ∃ c, getChildAtPos (.mk i k p e cs) pos = some c := by
  obtain ⟨hpe, hor, hl⟩ := wfb_parts hwf
  have ht : tiledb p cs e = true := by
    rcases bor_true hor with hemp | ht
    · exact absurd (List.isEmpty_iff.mp hemp) hne
    · exact ht
  obtain ⟨c, hc, hp⟩ := tiled_exists cs p e pos ht h1 h2
  rw [show getChildAtPos (.mk i k p e cs) pos
      = if pos < p || e ≤ pos then none else cs.find? (childAtPosPred pos) from rfl]
  have hcond : (pos < p || e ≤ pos) = false := by
    simp only [Bool.or_eq_false_iff, decide_eq_false_iff_not]
    omega
  rw [hcond]
  simp only [Bool.false_eq_true, if_false]
  cases hf : cs.find? (childAtPosPred pos) with
  | none => exact absurd hp (List.find?_eq_none.mp hf c hc)
  | some c' => exact ⟨c', rfl⟩

theorem descendLoop_contains : ∀ n : CompilerNode, wfb n = true →
    ∀ pos : Nat, n.pos ≤ pos → pos < n.endP →
      (descendLoop n pos).pos ≤ pos ∧ pos < (descendLoop n pos).endP := by
  intro n
  induction n using cnInd with
  | h i k p e cs ih =>
    intro hwf pos h1 h2
    rw [descendLoop]
    split
    · exact ⟨h1, h2⟩
    · next c hc =>
      obtain ⟨hpred, hmem⟩ := getChildAtPos_sound hc
      have hwfc := wfbList_mem cs (wfb_parts hwf).2.2 c hmem
      obtain ⟨hb1, hb2⟩ := childAtPosPred_iff.mp hpred
      exact ih c hmem hwfc pos hb1 hb2

/-- C2: for a well-formed source-file tree (compiler invariants: pos at
most end and non-empty child lists tiling the parent exactly) whose pos
is 0 and which has children, every pos in the file yields a descendant:
getDescendantAtPos returns a node satisfying containsRange(pos, pos),
and getChildAtPos returns the unique direct child containing pos (the
children being disjoint in pos order, at most one matches). -/
theorem c2_getDescendantAtPos_containsRange (sf : CompilerNode) (pos : Nat)
    (hwf : wfb sf = true) (hzero : sf.pos = 0) (hne : sf.children ≠ [])
    (hpos : pos < sf.endP) :
    (∃ d, getDescendantAtPos sf pos = some d ∧ containsRange d pos pos = true) ∧
    (∀ c, getChildAtPos sf pos = some c →
      childAtPosPred pos c = true ∧
      ∀ c', c' ∈ sf.children → childAtPosPred pos c' = true → c' = c) := by
  cases sf with
  | mk i k p e cs =>
    rw [show (CompilerNode.mk i k p e cs).pos = p from rfl] at hzero
    rw [show (CompilerNode.mk i k p e cs).endP = e from rfl] at hpos
    rw [show (CompilerNode.mk i k p e cs).children = cs from rfl] at hne
    constructor
    · obtain ⟨c, hc⟩ := getChildAtPos_exists hwf hne (by omega) hpos
      obtain ⟨hpred, hmem⟩ := getChildAtPos_sound hc
      have hwfc := wfbList_mem cs (wfb_parts hwf).2.2 c hmem
      obtain ⟨hb1, hb2⟩ := childAtPosPred_iff.mp hpred
      obtain ⟨hd1, hd2⟩ := descendLoop_contains c hwfc pos hb1 hb2
      refine ⟨descendLoop c pos, ?_, ?_⟩
      · simp [getDescendantAtPos, hc]
      · simp only [containsRange, Bool.and_eq_true, decide_eq_true_eq]
        omega
    · intro c0 hc0
      obtain ⟨hpred0, hmem0⟩ := getChildAtPos_sound hc0
      refine ⟨hpred0, fun c' hmem' hpred' => ?_⟩
      obtain ⟨hpe, hor, hl⟩ := wfb_parts hwf
      have ht : tiledb p cs e = true := by
        rcases bor_true hor with hemp | ht
        · exact absurd (List.isEmpty_iff.mp hemp) hne
        · exact ht
      have hb : ∀ x ∈ cs, x.pos ≤ x.endP := fun x hx => wfb_le (wfbList_mem cs hl x hx)
      exact tiled_unique cs p e pos ht hb c'
        (by simpa [CompilerNode.children] using hmem') c0
        (by simpa [CompilerNode.children] using hmem0) hpred' hpred0

theorem c2_witness :
    wfb (.mk 0 0 0 3 [.mk 1 0 0 2 [], .mk 2 0 2 3 []]) = true ∧
    ∃ d, getDescendantAtPos (.mk 0 0 0 3 [.mk 1 0 0 2 [], .mk 2 0 2 3 []]) 2 = some d ∧
      containsRange d 2 2 = true :=
  ⟨by decide,
    (c2_getDescendantAtPos_containsRange (.mk 0 0 0 3 [.mk 1 0 0 2 [], .mk 2 0 2 3 []]) 2
      (by decide) rfl (by intro h; simp [CompilerNode.children] at h) (by decide)).1⟩

/-! ## C6 -/

/-- C6: in UnwrapParentHandler.handleNode, when pairing up to
childIndex succeeds, the unwrapped child is available and has a child
syntax list, re-hosting that syntax list's children and pairing the
remaining current-side children both succeed, and the new node's child
iterator is not exhausted at that point, the handler fails with the
tree-replacement mismatch error "Error replacing tree: Should not have
more children left over.". -/
theorem c6_unwrap_leftover_error (cslOf : CompilerNode → Option CompilerNode)
    (childIndex : Nat) (s s1 s2 s3 : FactoryState)
    (currentNode newNode c0 childSyntaxList : CompilerNode)
    (curRest newRest1 newRest2 newRest3 : List CompilerNode)
    (h1 : unwrapPairUpTo childIndex s currentNode.children newNode.children
      = .ok (s1, c0 :: curRest, newRest1))
    (hsl : cslOf c0 = some childSyntaxList)
    (h2 : pairWithNew s1 childSyntaxList.children newRest1 = .ok (s2, newRest2))
    (h3 : pairWithNew (disposeNodesExcept childSyntaxList c0 s2) curRest newRest2
      = .ok (s3, newRest3))
    (hleft : newRest3 ≠ []) :
    unwrapHandleNode cslOf childIndex s currentNode newNode
      = .error (.generic "Error replacing tree: Should not have more children left over.") := by
  rw [unwrapHandleNode]
  simp only [h1, hsl, h2, h3]
  simp [List.isEmpty_iff, hleft]

theorem c6_witness :
    unwrapPairUpTo 0 ⟨[], [], []⟩ (CompilerNode.mk 0 0 0 0 [.mk 1 0 0 0 []]).children
        (CompilerNode.mk 5 0 0 0 [.mk 6 0 0 0 []]).children
      = .ok (⟨[], [], []⟩, [CompilerNode.mk 1 0 0 0 []], [CompilerNode.mk 6 0 0 0 []]) ∧
    unwrapHandleNode (fun _ => some (.mk 9 0 0 0 [])) 0 ⟨[], [], []⟩
        (.mk 0 0 0 0 [.mk 1 0 0 0 []]) (.mk 5 0 0 0 [.mk 6 0 0 0 []])
      = .error (.generic "Error replacing tree: Should not have more children left over.") :=
  ⟨rfl,
    c6_unwrap_leftover_error (fun _ => some (.mk 9 0 0 0 [])) 0
      ⟨[], [], []⟩ ⟨[], [], []⟩ ⟨[], [], []⟩
      (disposeNodesExcept (.mk 9 0 0 0 []) (.mk 1 0 0 0 []) ⟨[], [], []⟩)
      (.mk 0 0 0 0 [.mk 1 0 0 0 []]) (.mk 5 0 0 0 [.mk 6 0 0 0 []])
      (.mk 1 0 0 0 []) (.mk 9 0 0 0 [])
      [] [CompilerNode.mk 6 0 0 0 []] [CompilerNode.mk 6 0 0 0 []] [CompilerNode.mk 6 0 0 0 []]
      rfl rfl rfl rfl (by intro h; simp at h)⟩
